import Mathlib

/-!
Verification of the shadow-DOM query utilities of this repository
(`src/querySelectorShadow.js` and the unnamed override script).

The development shallowly embeds the DOM fragment the code manipulates:

* `Elem` models a DOM element: an identity (`eid`, standing for the
  object's reference identity), the set of selector strings the host's
  native `matches` predicate accepts for it (`ms`), an optional attached
  shadow root (its identity and child list) and the list of light-DOM
  children.
* `QNode` models the three kinds of nodes the traversals handle:
  elements, shadow roots and documents.  Shadow roots and documents own
  children but expose no `matches` capability and no `shadowRoot`
  accessor, exactly as in the host DOM.
* The host's native `querySelectorAll` is modelled by `nativeQSA`:
  the light-tree descendants in document order filtered by the native
  match predicate, with `*` matching every element; `querySelector`
  returns the head of that list.

All traversal functions are direct transcriptions of the source.
-/

namespace SQS

/-- A CSS selector string, kept opaque except for the marker handling. -/
abbrev Sel : Type := List Char

/-- The universal selector `*`, which natively matches every element. -/
def starSel : Sel := ['*']

/-- An element of the composed tree.  `mk eid ms shadow kids`:
`eid` is the object identity, `ms` the selectors the element natively
matches (besides `*`), `shadow` the optional attached shadow root
(identity of the shadow-root object and its children), `kids` the
light-DOM children. -/
inductive Elem : Type where
  | mk (eid : Nat) (ms : List Sel) (shadow : Option (Nat × List Elem)) (kids : List Elem)

/-- Identity of an element. -/
def Elem.eid : Elem → Nat
  | .mk i _ _ _ => i

/-- Selectors the element natively matches (besides `*`). -/
def Elem.ms : Elem → List Sel
  | .mk _ m _ _ => m

/-- The element's `shadowRoot` accessor. -/
def Elem.shadow : Elem → Option (Nat × List Elem)
  | .mk _ _ s _ => s

/-- The element's `children` accessor. -/
def Elem.kids : Elem → List Elem
  | .mk _ _ _ k => k

/-- The host's native `element.matches(selector)` predicate: `*` matches
every element, other selectors match according to the element's data. -/
def elemMatches (e : Elem) (sel : Sel) : Bool :=
  sel == starSel || e.ms.contains sel

/-- A node as handled by the traversals: an element, a shadow root
(with the identity of the shadow-root object and its children), or a
document (identity and children). -/
inductive QNode : Type where
  | el (e : Elem)
  | sh (sid : Nat) (kids : List Elem)
  | doc (did : Nat) (kids : List Elem)

/-- Object identity of a node. -/
def QNode.qid : QNode → Nat
  | .el e => e.eid
  | .sh i _ => i
  | .doc i _ => i

/-- The node's `children` accessor (every node kind has one). -/
def QNode.kidsOf : QNode → List Elem
  | .el e => e.kids
  | .sh _ ks => ks
  | .doc _ ks => ks

/-- Whether the node carries a native `matches` capability: elements do,
shadow roots and documents do not. -/
def QNode.hasMatches : QNode → Bool
  | .el _ => true
  | _ => false

/-- The node's `shadowRoot` accessor: only elements have one. -/
def QNode.shadowOf : QNode → Option (Nat × List Elem)
  | .el e => e.shadow
  | _ => none

mutual

/-- Size of an element's composed subtree (used as termination measure). -/
def esize : Elem → Nat
  | .mk _ _ sh ks => 1 + shsize sh + lsize ks

/-- Size of an optional shadow root. -/
def shsize : Option (Nat × List Elem) → Nat
  | none => 0
  | some (_, sks) => 1 + lsize sks

/-- Total size of a list of elements. -/
def lsize : List Elem → Nat
  | [] => 0
  | e :: es => esize e + lsize es

end

/-- Size of a node's composed subtree. -/
def qsize : QNode → Nat
  | .el e => esize e
  | .sh _ ks => 1 + lsize ks
  | .doc _ ks => 1 + lsize ks

/-- The light-tree descendants of the nodes of a list, in document
(preorder) order, each element followed by its own light descendants.
This models the node list the host's native flat-tree traversal
enumerates. -/
def lightList : List Elem → List Elem
  | [] => []
  | .mk i m sh ks :: es => .mk i m sh ks :: (lightList ks ++ lightList es)

/-- The host's native `root.querySelectorAll(sel)`: every proper
light-tree descendant of `root`, in document order, that natively
matches `sel`.  Shadow trees are not entered, exactly like the native
flat-tree query. -/
def nativeQSA (sel : Sel) (root : QNode) : List Elem :=
  (lightList root.kidsOf).filter (fun e => elemMatches e sel)

/-- The host's native `root.querySelector(sel)`: the first match of the
native flat-tree query, or `null`. -/
def nativeQS (sel : Sel) (root : QNode) : Option Elem :=
  (nativeQSA sel root).head?

/-- The shadow root of an element as a traversal node (empty list when
the element hosts none). -/
def shadowNodes : Option (Nat × List Elem) → List QNode
  | none => []
  | some (si, sks) => [.sh si sks]

/-- The nodes `querySelectorAllShadowOptimized` enqueues after visiting
`q`: first the shadow root if present, then the children — the order of
the two `pending.push` statements in the source. -/
def qChildren (q : QNode) : List QNode :=
  shadowNodes q.shadowOf ++ q.kidsOf.map QNode.el

/-- Total composed size of a list of nodes (termination measure for the
queue-driven traversals). -/
def qms (l : List QNode) : Nat := (l.map qsize).sum

theorem lsize_eq_sum (l : List Elem) : lsize l = (l.map esize).sum := by
  induction l with
  | nil => simp [lsize]
  | cons e es ih => simp [lsize, ih]

theorem qms_map_el (ks : List Elem) : qms (ks.map QNode.el) = lsize ks := by
  induction ks with
  | nil => simp [qms, lsize]
  | cons e es ih => simp [qms, lsize] at ih ⊢; simp [qsize, ih]

theorem qms_append (l₁ l₂ : List QNode) : qms (l₁ ++ l₂) = qms l₁ + qms l₂ := by
  simp [qms]

theorem qms_cons (q : QNode) (l : List QNode) : qms (q :: l) = qsize q + qms l := by
  simp [qms]

theorem qms_shadowNodes (sh : Option (Nat × List Elem)) :
    qms (shadowNodes sh) = shsize sh := by
  cases sh with
  | none => simp [shadowNodes, qms, shsize]
  | some sd => simp [shadowNodes, qms, shsize, qsize]

theorem qms_qChildren (q : QNode) : qms (qChildren q) + 1 = qsize q := by
  cases q with
  | el e =>
    cases e with
    | mk i m sh ks =>
      rw [qChildren]
      simp only [QNode.shadowOf, Elem.shadow, QNode.kidsOf, Elem.kids,
        qms_append, qms_shadowNodes, qms_map_el, qsize, esize]
      omega
  | sh i ks =>
    rw [qChildren]
    simp only [QNode.shadowOf, QNode.kidsOf, qms_append, qms_shadowNodes,
      qms_map_el, qsize, shadowNodes, shsize]
    simp [qms]
    omega
  | doc i ks =>
    rw [qChildren]
    simp only [QNode.shadowOf, QNode.kidsOf, qms_append, qms_shadowNodes,
      qms_map_el, qsize, shadowNodes, shsize]
    simp [qms]
    omega

/-- `querySelectorAllShadowOptimized` (src/querySelectorShadow.js lines
40–64 and the identical method of the override script): the `while`
loop over the explicit `pending` queue.  `rid` is the identity of the
initial `root` (the `current !== root` comparison); the dequeued node is
tested only when it is not the root and carries a `matches` capability,
then its shadow root (if any) and its children are enqueued. -/
def bfs (sel : Sel) (rid : Nat) : List QNode → List Elem
  | [] => []
  | current :: rest =>
    (match current with
     | .el e => if e.eid != rid && elemMatches e sel then [e] else []
     | _ => []) ++ bfs sel rid (rest ++ qChildren current)
termination_by q => qms q
decreasing_by
  have h := qms_qChildren current
  simp only [qms_append, qms_cons]
  omega

/-- The dequeue order of the queue traversal: the sequence of nodes the
`while` loop visits. -/
def visit : List QNode → List QNode
  | [] => []
  | current :: rest => current :: visit (rest ++ qChildren current)
termination_by q => qms q
decreasing_by
  have h := qms_qChildren current
  simp only [qms_append, qms_cons]
  omega

/-- Instrumentation of the queue traversal: the nodes on which the
source evaluates `current.matches(selector)` — those for which the
short-circuit guard `current !== root && current.matches` is truthy. -/
def bfsAttempts (rid : Nat) : List QNode → List QNode
  | [] => []
  | current :: rest =>
    (if current.qid != rid && current.hasMatches then [current] else []) ++
      bfsAttempts rid (rest ++ qChildren current)
termination_by q => qms q
decreasing_by
  have h := qms_qChildren current
  simp only [qms_append, qms_cons]
  omega

/-- `querySelectorAllShadowOptimized(selector, root)`. -/
def querySelectorAllShadowOptimized (sel : Sel) (root : QNode) : List Elem :=
  bfs sel root.qid [root]

/-- Level-by-level enumeration of the composed forest rooted at the
given nodes: the current frontier, then the concatenation of everybody's
`qChildren`, and so on.  This is the breadth-first level order the
specification describes, defined by rounds rather than by a queue. -/
def levelOrder (q : List QNode) : List QNode :=
  if q.isEmpty then [] else q ++ levelOrder (q.flatMap qChildren)
termination_by qms q
decreasing_by
  rename_i hq
  have hlen : 0 < q.length := by
    cases q with
    | nil => simp [List.isEmpty] at hq
    | cons a l => simp
  have hstep : qms (q.flatMap qChildren) + q.length = qms q := by
    clear hq hlen
    induction q with
    | nil => simp [qms]
    | cons a l ih =>
      have := qms_qChildren a
      simp only [List.flatMap_cons, qms_append, qms_cons, List.length_cons]
      omega
  omega

mutual

/-- Composed-tree preorder below and including an element: the element,
then its shadow subtree, then its children's subtrees. -/
def elSubN : Elem → List QNode
  | .mk i m sh ks => .el (.mk i m sh ks) :: (shSubN sh ++ listSubN ks)

/-- Composed-tree preorder of an optional shadow root. -/
def shSubN : Option (Nat × List Elem) → List QNode
  | none => []
  | some (si, sks) => .sh si sks :: listSubN sks

/-- Composed-tree preorder of a list of elements. -/
def listSubN : List Elem → List QNode
  | [] => []
  | e :: es => elSubN e ++ listSubN es

end

/-- All nodes strictly below `q` in the composed tree (its shadow tree
included), in preorder. -/
def properNodes : QNode → List QNode
  | .el (.mk _ _ sh ks) => shSubN sh ++ listSubN ks
  | .sh _ ks => listSubN ks
  | .doc _ ks => listSubN ks

/-- All nodes of the composed tree rooted at `q`, `q` first. -/
def qSub (q : QNode) : List QNode := q :: properNodes q

/-- The element nodes of a node list. -/
def elemsOf : List QNode → List Elem :=
  List.filterMap (fun q => match q with | .el e => some e | _ => none)

/-- All elements strictly below `q` in the composed tree, in preorder:
the elements reachable from `q` through any number of shadow-root
boundaries. -/
def properEls (q : QNode) : List Elem := elemsOf (properNodes q)

/-- The identities of every node of the composed tree rooted at `q`. -/
def allIds (q : QNode) : List Nat := (qSub q).map QNode.qid

/-- Well-formedness of a composed tree: every node (elements, shadow
roots, the root itself) has a distinct identity, as references to
distinct live DOM objects do. -/
def Wf (q : QNode) : Prop := (allIds q).Nodup

instance : DecidablePred Wf := fun q => by
  unfold Wf
  infer_instance

theorem esize_le_of_mem_lightList :
    ∀ (l : List Elem) (e : Elem), e ∈ lightList l → esize e ≤ lsize l
  | [], e, h => by simp [lightList] at h
  | .mk i m sh ks :: es, e, h => by
    rw [lightList] at h
    rcases List.mem_cons.1 h with rfl | h2
    · simp only [lsize]
      omega
    · rcases List.mem_append.1 h2 with h3 | h4
      · have hk := esize_le_of_mem_lightList ks e h3
        simp only [lsize, esize]
        omega
      · have hk := esize_le_of_mem_lightList es e h4
        simp only [lsize]
        omega

theorem lsize_kidsOf_lt_qsize (q : QNode) : lsize q.kidsOf < qsize q := by
  cases q with
  | el e =>
    cases e with
    | mk i m sh ks =>
      simp only [QNode.kidsOf, Elem.kids, qsize, esize]
      omega
  | sh i ks => simp [QNode.kidsOf, qsize]
  | doc i ks => simp [QNode.kidsOf, qsize]

theorem shsize_shadow_le (e : Elem) : shsize e.shadow + 1 ≤ esize e := by
  cases e with
  | mk i m sh ks =>
    simp [Elem.shadow, esize]
    omega

/-- `querySelectorShadow(selector, root)` (src/querySelectorShadow.js
lines 14–32): first the native `root.querySelector`, then, if nothing
was found, iterate over `root.querySelectorAll('*')` and recurse into
each element's shadow root, returning the first hit.  The inner queries
denote the host's native behaviour (as before the prototype overrides;
after the marker-gated install they are identical for marker-free
selectors, since the override forwards those to the saved originals). -/
def querySelectorShadow (sel : Sel) (root : QNode) : Option Elem :=
  match nativeQS sel root with
  | some e => some e
  | none =>
    (nativeQSA starSel root).attach.findSome? fun x =>
      match hs : x.1.shadow with
      | some sd => querySelectorShadow sel (.sh sd.1 sd.2)
      | none => none
termination_by qsize root
decreasing_by
  have hmem : x.1 ∈ lightList root.kidsOf := by
    have hx := x.2
    simp only [nativeQSA, List.mem_filter] at hx
    exact hx.1
  have h1 : esize x.1 ≤ lsize root.kidsOf := esize_le_of_mem_lightList _ _ hmem
  have h2 : lsize root.kidsOf < qsize root := lsize_kidsOf_lt_qsize root
  have h3 : shsize x.1.shadow + 1 ≤ esize x.1 := shsize_shadow_le x.1
  rw [hs] at h3
  simp only [shsize] at h3
  have h4 : qsize (QNode.sh sd.1 sd.2) = 1 + lsize sd.2 := rfl
  omega

/-- `querySelectorAllShadow(selector, root)` (src/querySelectorShadow.js
lines 96–114): the native flat matches of `root`, followed by the
recursively collected matches of the shadow root of every light-tree
descendant.  Inner queries denote the host's native behaviour, as for
`querySelectorShadow`. -/
def querySelectorAllShadow (sel : Sel) (root : QNode) : List Elem :=
  nativeQSA sel root ++
    ((nativeQSA starSel root).attach.flatMap fun x =>
      match hs : x.1.shadow with
      | some sd => querySelectorAllShadow sel (.sh sd.1 sd.2)
      | none => [])
termination_by qsize root
decreasing_by
  have hmem : x.1 ∈ lightList root.kidsOf := by
    have hx := x.2
    simp only [nativeQSA, List.mem_filter] at hx
    exact hx.1
  have h1 : esize x.1 ≤ lsize root.kidsOf := esize_le_of_mem_lightList _ _ hmem
  have h2 : lsize root.kidsOf < qsize root := lsize_kidsOf_lt_qsize root
  have h3 : shsize x.1.shadow + 1 ≤ esize x.1 := shsize_shadow_le x.1
  rw [hs] at h3
  simp only [shsize] at h3
  have h4 : qsize (QNode.sh sd.1 sd.2) = 1 + lsize sd.2 := rfl
  omega

mutual

/-- An element as seen by the upward walk of `closestShadow`: identity,
natively matched selectors, and what lies above it.  This captures the
exact primitives the source consults while walking up: `parentElement`,
and — when the parent link is exhausted — `getRootNode()` (a shadow root
with a `host`, or the document). -/
inductive Up : Type where
  | mk (uid : Nat) (ms : List Sel) (next : UpNext)

/-- What is above an element: a parent element, the top of the document
tree (`parentElement` null, `getRootNode()` the document), or the top of
a shadow tree (`parentElement` null, `getRootNode()` a `ShadowRoot`
whose `host` is the given element). -/
inductive UpNext : Type where
  | parent (p : Up)
  | docTop
  | shadowTop (host : Up)

end

/-- The native `matches` of an element of the upward walk. -/
def upMatches (u : Up) (sel : Sel) : Bool :=
  match u with
  | .mk _ ms _ => sel == starSel || ms.contains sel

/-- `closestShadow(element, selector)` (src/querySelectorShadow.js lines
72–88): walk upward; a matching element is returned at once.  Otherwise
the source executes `element = element.parentElement;` and then
`if (!element && element.getRootNode() instanceof ShadowRoot)`.  When a
parent exists the walk continues with it.  When the parent link is
exhausted, `element` is `null` and the guard's second conjunct evaluates
`null.getRootNode()`, which raises a `TypeError` — in both the
document-top and the shadow-top case.  The embedding returns
`Except.error ()` for that raised exception. -/
def closestShadow (element : Up) (sel : Sel) : Except Unit (Option Up) :=
  match element with
  | .mk i ms next =>
    if upMatches (.mk i ms next) sel then .ok (some (.mk i ms next))
    else
      match next with
      | .parent p => closestShadow p sel
      | .docTop => .error ()
      | .shadowTop _ => .error ()

/-- JavaScript whitespace as matched by `\s` and removed by `trim()`
(restricted to the ASCII range, which suffices for this development). -/
def jsWS (c : Char) : Bool :=
  c == ' ' || c == '\t' || c == '\n' || c == '\r' || c == '\x0B' || c == '\x0C'

/-- The literal token `:shadow`. -/
def shadowTok : List Char := [':', 's', 'h', 'a', 'd', 'o', 'w']

/-- The literal token `>>>`. -/
def arrowTok : List Char := ['>', '>', '>']

/-- `String.prototype.includes(pat)`: some contiguous occurrence. -/
def containsSeq (pat : List Char) : List Char → Bool
  | [] => pat.isPrefixOf []
  | c :: cs => pat.isPrefixOf (c :: cs) || containsSeq pat cs

/-- `needsShadowSearch(selector)` (src/querySelectorShadow.js lines
128–130): the selector contains `:shadow` or `>>>`. -/
def needsShadowSearch (sel : Sel) : Bool :=
  containsSeq shadowTok sel || containsSeq arrowTok sel

/-- `selector.replace(/:shadow\s*/g, '')`: scan left to right; at an
occurrence of `:shadow` remove it together with the following
whitespace run and continue after it, as the global regex replace
does. -/
def stripShadowTok : List Char → List Char
  | [] => []
  | c :: cs =>
    if shadowTok.isPrefixOf (c :: cs) then
      stripShadowTok ((cs.drop 6).dropWhile jsWS)
    else c :: stripShadowTok cs
termination_by l => l.length
decreasing_by
  · have h1 : ((cs.drop 6).dropWhile jsWS).length ≤ (cs.drop 6).length :=
      (List.dropWhile_sublist _).length_le
    have h2 : (cs.drop 6).length ≤ cs.length := by
      simp [List.length_drop]
    simp
    omega
  · simp

/-- `selector.replace(/>>>\s*/g, '')`. -/
def stripArrowTok : List Char → List Char
  | [] => []
  | c :: cs =>
    if arrowTok.isPrefixOf (c :: cs) then
      stripArrowTok ((cs.drop 2).dropWhile jsWS)
    else c :: stripArrowTok cs
termination_by l => l.length
decreasing_by
  · have h1 : ((cs.drop 2).dropWhile jsWS).length ≤ (cs.drop 2).length :=
      (List.dropWhile_sublist _).length_le
    have h2 : (cs.drop 2).length ≤ cs.length := by
      simp [List.length_drop]
    simp
    omega
  · simp

/-- `String.prototype.trim()`. -/
def jsTrim (s : List Char) : List Char :=
  ((s.dropWhile jsWS).reverse.dropWhile jsWS).reverse

/-- `cleanSelector(selector)` (src/querySelectorShadow.js lines
133–135): remove every `:shadow` (with trailing whitespace), then every
`>>>` (with trailing whitespace), then trim. -/
def cleanSelector (sel : Sel) : Sel :=
  jsTrim (stripArrowTok (stripShadowTok sel))

/-- The marker-gated `querySelector` override installed by the IIFE of
src/querySelectorShadow.js (lines 138–143 and 154–159; the `Element`
and `Document` overrides have identical bodies): a marker diverts the
query to `querySelectorShadow` on the cleaned selector, otherwise the
saved original native method runs. -/
def mgQuerySelector (sel : Sel) (receiver : QNode) : Option Elem :=
  if needsShadowSearch sel then querySelectorShadow (cleanSelector sel) receiver
  else nativeQS sel receiver

/-- The marker-gated `querySelectorAll` override (lines 146–151 and
162–167). -/
def mgQuerySelectorAll (sel : Sel) (receiver : QNode) : List Elem :=
  if needsShadowSearch sel then querySelectorAllShadowOptimized (cleanSelector sel) receiver
  else nativeQSA sel receiver

/-- Whether a node is a `Document` or `Element` — the two prototypes the
override script patches (`ShadowRoot` keeps its native methods). -/
def QNode.isPatched : QNode → Bool
  | .sh _ _ => false
  | _ => true

mutual

/-- The `querySelector` override installed by the unnamed script
(src/unnamed/part_000 lines 140–143): `this.querySelectorShadow(sel,
this)`.  The script saves no original method, so inner `querySelector`
calls on documents and elements re-enter this override.  The functions
of that script are therefore modelled with a step-count (fuel,
decremented on every recursive step): `none` means the computation did
not finish within the given budget, `some r` means it finished with
result `r` — a `some` result for any fuel certifies that the JavaScript
call returns it. -/
def p0QuerySelector : Nat → Sel → QNode → Option (Option Elem)
  | 0, _, _ => none
  | f + 1, sel, receiver => p0QuerySelectorShadow f sel receiver

/-- `Document.prototype.querySelectorShadow` of the unnamed script
(lines 31–52), as it behaves once the script has run: the first step is
`root.querySelector(selector)`, which on a document or element is the
(unsaved-original) override itself, and only on a shadow root is the
host's native query; then the hosts of `root.querySelectorAll('*')` —
the overridden `querySelectorAll`, i.e. the optimized traversal, on
patched receivers — are searched recursively. -/
def p0QuerySelectorShadow : Nat → Sel → QNode → Option (Option Elem)
  | 0, _, _ => none
  | f + 1, sel, root =>
    match (match root with
           | .sh i ks => some (nativeQS sel (.sh i ks))
           | r => p0QuerySelector f sel r) with
    | none => none
    | some (some e) => some (some e)
    | some none =>
      p0ShadowLoop f sel
        (match root with
         | .sh i ks => nativeQSA starSel (.sh i ks)
         | r => querySelectorAllShadowOptimized starSel r)

/-- The `for (const el of allElements)` loop of the unnamed script's
`querySelectorShadow`: recurse into each shadow root, returning the
first hit. -/
def p0ShadowLoop : Nat → Sel → List Elem → Option (Option Elem)
  | 0, _, _ => none
  | _ + 1, _, [] => some none
  | f + 1, sel, e :: rest =>
    match e.shadow with
    | none => p0ShadowLoop f sel rest
    | some sd =>
      match p0QuerySelectorShadow f sel (.sh sd.1 sd.2) with
      | none => none
      | some (some m) => some (some m)
      | some none => p0ShadowLoop f sel rest

end

/-- `root.querySelectorAll(sel)` in the world of the unnamed script:
documents and elements carry the override (the optimized traversal),
shadow roots keep the native query. -/
def p0qsaDispatch (sel : Sel) (r : QNode) : List Elem :=
  match r with
  | .sh i ks => nativeQSA sel (.sh i ks)
  | r => querySelectorAllShadowOptimized sel r

mutual

/-- `Document.prototype.querySelectorAllShadow` of the unnamed script
(lines 118–137), as it behaves once the script has run: the initial
`root.querySelectorAll(selector)` and the `'*'` enumeration go through
`p0qsaDispatch`, and each descendant's shadow root is collected
recursively.  Fuel as for `p0QuerySelector`. -/
def p0QuerySelectorAllShadow : Nat → Sel → QNode → Option (List Elem)
  | 0, _, _ => none
  | f + 1, sel, root =>
    match p0AllLoop f sel (p0qsaDispatch starSel root) with
    | none => none
    | some tail => some (p0qsaDispatch sel root ++ tail)

/-- The collection loop of `querySelectorAllShadow` of the unnamed
script. -/
def p0AllLoop : Nat → Sel → List Elem → Option (List Elem)
  | 0, _, _ => none
  | _ + 1, _, [] => some []
  | f + 1, sel, e :: rest =>
    match e.shadow with
    | none => p0AllLoop f sel rest
    | some sd =>
      match p0QuerySelectorAllShadow f sel (.sh sd.1 sd.2) with
      | none => none
      | some r1 =>
        match p0AllLoop f sel rest with
        | none => none
        | some r2 => some (r1 ++ r2)

end

/-- One step of `querySelectorShadow`'s host loop: recurse into the
element's shadow root if it has one. -/
def shadowStep (sel : Sel) (e : Elem) : Option Elem :=
  match e.shadow with
  | some sd => querySelectorShadow sel (.sh sd.1 sd.2)
  | none => none

/-- One step of `querySelectorAllShadow`'s host loop. -/
def allShadowStep (sel : Sel) (e : Elem) : List Elem :=
  match e.shadow with
  | some sd => querySelectorAllShadow sel (.sh sd.1 sd.2)
  | none => []

/-- The test the queue traversal applies to a dequeued node
(`current !== root && current.matches && current.matches(selector)`),
returning the node when it is pushed onto `results`. -/
def bfsTest (sel : Sel) (rid : Nat) : QNode → Option Elem
  | .el e => if e.eid != rid && elemMatches e sel then some e else none
  | _ => none

/-- The elements of an element's shadow tree (empty when it hosts no
shadow root). -/
def scopeEls (h : Elem) : List Elem :=
  match h.shadow with
  | some sd => elemsOf (listSubN sd.2)
  | none => []

/-- The elements reachable from `q` downward without entering `q`'s own
shadow root: everything below `q`'s children, shadow trees of
descendants included.  For a document root this equals `properEls q`;
for an element hosting a shadow root it omits that shadow tree. -/
def childReachEls (q : QNode) : List Elem := elemsOf (listSubN q.kidsOf)

theorem attach_findSome_eq {α β : Type} (l : List α) (g : α → Option β) :
    (l.attach.findSome? fun x => g x.1) = l.findSome? g := by
  conv_rhs => rw [show l = l.attach.map Subtype.val by simp]
  rw [List.findSome?_map]
  rfl

theorem attach_flatMap_eq {α β : Type} (l : List α) (g : α → List β) :
    (l.attach.flatMap fun x => g x.1) = l.flatMap g := by
  conv_rhs => rw [show l = l.attach.map Subtype.val by simp]
  simp [List.flatMap_def, List.map_map]

/-- `querySelectorShadow`, rephrased without the membership bookkeeping
of its well-founded definition. -/
theorem querySelectorShadow_eq (sel : Sel) (root : QNode) :
    querySelectorShadow sel root =
      match nativeQS sel root with
      | some e => some e
      | none => (nativeQSA starSel root).findSome? (shadowStep sel) := by
  rw [querySelectorShadow]
  cases h : nativeQS sel root with
  | some e => rfl
  | none =>
    simp only
    rw [← attach_findSome_eq (nativeQSA starSel root) (shadowStep sel)]
    congr 1
    funext x
    cases hx : x.1.shadow with
    | some sd => simp [shadowStep, hx]
    | none => simp [shadowStep, hx]

/-- `querySelectorAllShadow`, rephrased without the membership
bookkeeping of its well-founded definition. -/
theorem querySelectorAllShadow_eq (sel : Sel) (root : QNode) :
    querySelectorAllShadow sel root =
      nativeQSA sel root ++ (nativeQSA starSel root).flatMap (allShadowStep sel) := by
  rw [querySelectorAllShadow]
  congr 1
  rw [← attach_flatMap_eq (nativeQSA starSel root) (allShadowStep sel)]
  congr 1
  funext x
  cases hx : x.1.shadow with
  | some sd => simp [allShadowStep, hx]
  | none => simp [allShadowStep, hx]

theorem elemMatches_star (e : Elem) : elemMatches e starSel = true := by
  simp [elemMatches]

/-- The `'*'` enumeration is exactly the light-tree descendant list. -/
theorem nativeQSA_star (q : QNode) : nativeQSA starSel q = lightList q.kidsOf := by
  unfold nativeQSA
  apply List.filter_eq_self.mpr
  intro e _
  exact elemMatches_star e

theorem qms_step_lt (c : QNode) (rest : List QNode) :
    qms (rest ++ qChildren c) < qms (c :: rest) := by
  have h := qms_qChildren c
  simp only [qms_append, qms_cons]
  omega

theorem qms_flatMap_qChildren (q : List QNode) :
    qms (q.flatMap qChildren) + q.length = qms q := by
  induction q with
  | nil => simp [qms]
  | cons a l ih =>
    have := qms_qChildren a
    simp only [List.flatMap_cons, qms_append, qms_cons, List.length_cons]
    omega

/-- Processing a batch at the head of the queue defers its children
behind the rest: the key rotation property of the queue discipline. -/
theorem visit_append (qs rs : List QNode) :
    visit (qs ++ rs) = qs ++ visit (rs ++ qs.flatMap qChildren) := by
  induction qs generalizing rs with
  | nil => simp
  | cons x qs ih =>
    rw [List.cons_append]
    simp only [visit]
    rw [List.append_assoc, ih (rs ++ qChildren x)]
    simp [List.append_assoc]

/-- The queue traversal visits the current frontier, then everything
bred by it. -/
theorem visit_rotate (q : List QNode) :
    visit q = q ++ visit (q.flatMap qChildren) := by
  have h := visit_append q []
  simpa using h

/-- The queue traversal's visit order is the level order of the composed
forest. -/
theorem visit_eq_levelOrder : ∀ q : List QNode, visit q = levelOrder q
  | [] => by
    rw [levelOrder]
    simp [visit]
  | x :: l => by
    rw [levelOrder, if_neg (by simp)]
    rw [visit_rotate (x :: l)]
    rw [visit_eq_levelOrder ((x :: l).flatMap qChildren)]
termination_by q => qms q
decreasing_by
  have h1 := qms_flatMap_qChildren (x :: l)
  simp only [List.length_cons] at h1
  omega

/-- The result list of the queue traversal is the visit order filtered
through the source's test. -/
theorem bfs_eq_visit (sel : Sel) (rid : Nat) :
    ∀ q : List QNode, bfs sel rid q = (visit q).filterMap (bfsTest sel rid)
  | [] => by simp [bfs, visit]
  | current :: rest => by
    have ih := bfs_eq_visit sel rid (rest ++ qChildren current)
    cases current with
    | el e =>
      rw [bfs, visit, ih, List.filterMap_cons]
      simp only [bfsTest]
      cases h : e.eid != rid && elemMatches e sel <;> simp [h]
    | sh i ks =>
      rw [bfs, visit, ih, List.filterMap_cons]
      all_goals simp [bfsTest]
    | doc i ks =>
      rw [bfs, visit, ih, List.filterMap_cons]
      all_goals simp [bfsTest]
termination_by q => qms q
decreasing_by
  exact qms_step_lt _ _

/-- The nodes on which the traversal invokes the native match predicate
are the visited nodes passing the guard. -/
theorem bfsAttempts_eq_visit (rid : Nat) :
    ∀ q : List QNode,
      bfsAttempts rid q = (visit q).filter (fun n => n.qid != rid && n.hasMatches)
  | [] => by simp [bfsAttempts, visit]
  | current :: rest => by
    have ih := bfsAttempts_eq_visit rid (rest ++ qChildren current)
    rw [bfsAttempts, visit, ih, List.filter_cons]
    cases h : QNode.qid current != rid && current.hasMatches <;> simp [h]
termination_by q => qms q
decreasing_by
  exact qms_step_lt _ _

theorem qSub_el (e : Elem) : qSub (QNode.el e) = elSubN e := by
  cases e with
  | mk i m sh ks => rfl

theorem flatMap_map_el_qSub (ks : List Elem) :
    (ks.map QNode.el).flatMap qSub = listSubN ks := by
  induction ks with
  | nil => simp [listSubN]
  | cons e es ih => simp [listSubN, qSub_el, ih]

theorem flatMap_shadowNodes_qSub (sh : Option (Nat × List Elem)) :
    (shadowNodes sh).flatMap qSub = shSubN sh := by
  cases sh with
  | none => simp [shadowNodes, shSubN]
  | some sd => simp [shadowNodes, shSubN, qSub, properNodes]

theorem properNodes_eq_flatMap (q : QNode) :
    properNodes q = (qChildren q).flatMap qSub := by
  cases q with
  | el e =>
    cases e with
    | mk i m sh ks =>
      simp [properNodes, qChildren, QNode.shadowOf, Elem.shadow, QNode.kidsOf,
        Elem.kids, List.flatMap_append, flatMap_shadowNodes_qSub, flatMap_map_el_qSub]
  | sh i ks =>
    simp [properNodes, qChildren, QNode.shadowOf, QNode.kidsOf, shadowNodes,
      flatMap_map_el_qSub]
  | doc i ks =>
    simp [properNodes, qChildren, QNode.shadowOf, QNode.kidsOf, shadowNodes,
      flatMap_map_el_qSub]

/-- The queue traversal visits every node of the composed forest exactly
once: its visit order is a permutation of the preorder enumeration. -/
theorem visit_perm_qSub : ∀ q : List QNode, (visit q).Perm (q.flatMap qSub)
  | [] => by simp [visit]
  | current :: rest => by
    rw [visit]
    have ih := visit_perm_qSub (rest ++ qChildren current)
    have h1 : (visit (rest ++ qChildren current)).Perm
        (rest.flatMap qSub ++ properNodes current) := by
      rw [properNodes_eq_flatMap]
      refine ih.trans ?_
      rw [List.flatMap_append]
    have h2 := h1.cons current
    have h3 : (current :: rest).flatMap qSub =
        current :: (properNodes current ++ rest.flatMap qSub) := by
      simp [qSub]
    rw [h3]
    exact h2.trans (List.Perm.cons current List.perm_append_comm)
termination_by q => qms q
decreasing_by
  exact qms_step_lt _ _

theorem elemsOf_nil : elemsOf [] = [] := rfl

theorem elemsOf_cons_el (e : Elem) (l : List QNode) :
    elemsOf (QNode.el e :: l) = e :: elemsOf l := by
  simp [elemsOf]

theorem elemsOf_cons_sh (i : Nat) (ks : List Elem) (l : List QNode) :
    elemsOf (QNode.sh i ks :: l) = elemsOf l := by
  simp [elemsOf]

theorem elemsOf_cons_doc (i : Nat) (ks : List Elem) (l : List QNode) :
    elemsOf (QNode.doc i ks :: l) = elemsOf l := by
  simp [elemsOf]

theorem elemsOf_append (l₁ l₂ : List QNode) :
    elemsOf (l₁ ++ l₂) = elemsOf l₁ ++ elemsOf l₂ := by
  simp [elemsOf]

theorem mem_elemsOf (e : Elem) (l : List QNode) :
    e ∈ elemsOf l ↔ QNode.el e ∈ l := by
  unfold elemsOf
  rw [List.mem_filterMap]
  constructor
  · rintro ⟨a, ha, hfa⟩
    cases a with
    | el x => simp at hfa; subst hfa; exact ha
    | sh i ks => simp at hfa
    | doc i ks => simp at hfa
  · intro h
    exact ⟨QNode.el e, h, rfl⟩

/-- The result filter of the queue traversal, expressed on the element
underlay: non-elements are skipped, elements pass the root/match test. -/
theorem filterMap_bfsTest (sel : Sel) (rid : Nat) (l : List QNode) :
    l.filterMap (bfsTest sel rid) =
      (elemsOf l).filter (fun e => e.eid != rid && elemMatches e sel) := by
  induction l with
  | nil => simp [elemsOf]
  | cons q l ih =>
    cases q with
    | el e =>
      rw [List.filterMap_cons, elemsOf_cons_el, List.filter_cons]
      cases h : e.eid != rid && elemMatches e sel <;> simp [bfsTest, h, ih]
    | sh i ks =>
      rw [List.filterMap_cons, elemsOf_cons_sh]
      simp [bfsTest, ih]
    | doc i ks =>
      rw [List.filterMap_cons, elemsOf_cons_doc]
      simp [bfsTest, ih]

theorem bfsTest_self (sel : Sel) (root : QNode) :
    bfsTest sel root.qid root = none := by
  cases root with
  | el e => simp [bfsTest, QNode.qid]
  | sh i ks => simp [bfsTest]
  | doc i ks => simp [bfsTest]

/-- The queue variant, as a multiset: the proper composed-tree elements
that pass the root/match test, each exactly as often as it occurs in the
composed tree. -/
theorem optimized_perm (sel : Sel) (root : QNode) :
    (querySelectorAllShadowOptimized sel root).Perm
      ((properEls root).filter (fun e => e.eid != root.qid && elemMatches e sel)) := by
  unfold querySelectorAllShadowOptimized
  rw [bfs_eq_visit]
  have hp := (visit_perm_qSub [root]).filterMap (bfsTest sel root.qid)
  simp only [List.flatMap_cons, List.flatMap_nil, List.append_nil] at hp
  refine hp.trans ?_
  have hq : qSub root = root :: properNodes root := rfl
  rw [hq, List.filterMap_cons, bfsTest_self]
  rw [filterMap_bfsTest]
  exact List.Perm.refl _

theorem qsize_shadow_lt_of_mem (root : QNode) (h : Elem) (sd : Nat × List Elem)
    (hmem : h ∈ lightList root.kidsOf) (hsh : h.shadow = some sd) :
    qsize (QNode.sh sd.1 sd.2) < qsize root := by
  have h1 := esize_le_of_mem_lightList _ _ hmem
  have h2 := lsize_kidsOf_lt_qsize root
  have h3 := shsize_shadow_le h
  rw [hsh] at h3
  simp only [shsize] at h3
  have h4 : qsize (QNode.sh sd.1 sd.2) = 1 + lsize sd.2 := rfl
  omega

/-- Composed preorder below a list of elements, decomposed scope by
scope: the light-tree elements, together with the full shadow scope of
each light-tree element. -/
theorem listSubN_decomp : ∀ l : List Elem,
    (elemsOf (listSubN l)).Perm (lightList l ++ (lightList l).flatMap scopeEls)
  | [] => by simp [listSubN, lightList, elemsOf]
  | .mk i m sh ks :: es => by
    have ih1 := listSubN_decomp ks
    have ih2 := listSubN_decomp es
    have hL : listSubN (Elem.mk i m sh ks :: es) =
        QNode.el (.mk i m sh ks) :: ((shSubN sh ++ listSubN ks) ++ listSubN es) := by
      simp [listSubN, elSubN]
    have hscope : elemsOf (shSubN sh) = scopeEls (.mk i m sh ks) := by
      cases sh with
      | none => simp [shSubN, scopeEls, Elem.shadow, elemsOf]
      | some sd => simp [shSubN, scopeEls, Elem.shadow, elemsOf_cons_sh]
    rw [hL, elemsOf_cons_el, elemsOf_append, elemsOf_append, hscope]
    have hlight : lightList (Elem.mk i m sh ks :: es) =
        Elem.mk i m sh ks :: (lightList ks ++ lightList es) := by
      rw [lightList]
    rw [hlight]
    rw [← Multiset.coe_eq_coe] at ih1 ih2 ⊢
    simp only [← Multiset.cons_coe, ← Multiset.coe_add, Multiset.coe_nil,
      ← Multiset.singleton_add, List.flatMap_cons, List.flatMap_append] at ih1 ih2 ⊢
    rw [ih1, ih2]
    abel

/-- The recursive all-matches variant, as a multiset: the matching
elements reachable below the root's children (the root's own shadow
tree is never reached), each exactly as often as it occurs there. -/
theorem querySelectorAllShadow_perm (sel : Sel) : ∀ root : QNode,
    (querySelectorAllShadow sel root).Perm
      ((childReachEls root).filter (fun e => elemMatches e sel))
  | root => by
    rw [querySelectorAllShadow_eq, nativeQSA_star]
    have hstep : ∀ h ∈ lightList root.kidsOf,
        (allShadowStep sel h).Perm
          ((scopeEls h).filter (fun e => elemMatches e sel)) := by
      intro h hmem
      cases hsh : h.shadow with
      | none => simp [allShadowStep, scopeEls, hsh]
      | some sd =>
        have hrec := querySelectorAllShadow_perm sel (.sh sd.1 sd.2)
        simpa [allShadowStep, scopeEls, hsh, childReachEls, QNode.kidsOf] using hrec
    have hflat := List.Perm.bind_left (lightList root.kidsOf) hstep
    have hdec := (listSubN_decomp root.kidsOf).filter (fun e => elemMatches e sel)
    refine ((List.Perm.refl (nativeQSA sel root)).append hflat).trans ?_
    refine (List.Perm.symm ?_)
    refine hdec.trans ?_
    rw [List.filter_append, List.filter_flatMap]
    exact List.Perm.refl _
termination_by root => qsize root
decreasing_by
  exact qsize_shadow_lt_of_mem root h sd hmem hsh

theorem nativeQS_sound (sel : Sel) (root : QNode) (m : Elem)
    (h : nativeQS sel root = some m) :
    m ∈ lightList root.kidsOf ∧ elemMatches m sel = true := by
  unfold nativeQS at h
  have hm : m ∈ nativeQSA sel root := by
    rcases List.head?_eq_some_iff.1 h with ⟨ys, hy⟩
    rw [hy]
    exact List.mem_cons_self _ _
  unfold nativeQSA at hm
  rw [List.mem_filter] at hm
  exact hm

theorem nativeQS_complete (sel : Sel) (root : QNode) (e : Elem)
    (he : e ∈ lightList root.kidsOf) (hm : elemMatches e sel = true) :
    ∃ m, nativeQS sel root = some m := by
  have hmem : e ∈ nativeQSA sel root := by
    unfold nativeQSA
    rw [List.mem_filter]
    exact ⟨he, hm⟩
  cases hq : nativeQSA sel root with
  | nil => rw [hq] at hmem; simp at hmem
  | cons m ms =>
    refine ⟨m, ?_⟩
    unfold nativeQS
    rw [hq]
    rfl

/-- Whatever `querySelectorShadow` returns natively matches the
selector. -/
theorem querySelectorShadow_sound (sel : Sel) : ∀ (root : QNode) (m : Elem),
    querySelectorShadow sel root = some m → elemMatches m sel = true
  | root, m => by
    intro h
    rw [querySelectorShadow_eq] at h
    cases hn : nativeQS sel root with
    | some e =>
      rw [hn] at h
      simp only [Option.some.injEq] at h
      subst h
      exact (nativeQS_sound sel root e hn).2
    | none =>
      rw [hn] at h
      simp only at h
      obtain ⟨x, hx, hgx⟩ := List.exists_of_findSome?_eq_some h
      rw [nativeQSA_star] at hx
      unfold shadowStep at hgx
      cases hsh : x.shadow with
      | none => rw [hsh] at hgx; simp at hgx
      | some sd =>
        rw [hsh] at hgx
        exact querySelectorShadow_sound sel (.sh sd.1 sd.2) m hgx
termination_by root _ => qsize root
decreasing_by
  rw [nativeQSA_star] at hx
  exact qsize_shadow_lt_of_mem root x sd hx hsh

/-- If any element reachable below the root's children matches, the
first-match traversal returns a matching element. -/
theorem querySelectorShadow_complete (sel : Sel) : ∀ (root : QNode) (e : Elem),
    e ∈ childReachEls root → elemMatches e sel = true →
    ∃ m, querySelectorShadow sel root = some m ∧ elemMatches m sel = true
  | root, e => by
    intro he hm
    rw [querySelectorShadow_eq]
    cases hn : nativeQS sel root with
    | some m0 =>
      exact ⟨m0, rfl, (nativeQS_sound sel root m0 hn).2⟩
    | none =>
      simp only
      unfold childReachEls at he
      have hsplit := (listSubN_decomp root.kidsOf).mem_iff.1 he
      rw [List.mem_append] at hsplit
      rcases hsplit with hlight | hshadow
      · obtain ⟨m, hQ⟩ := nativeQS_complete sel root e hlight hm
        rw [hn] at hQ
        simp at hQ
      · rw [List.mem_flatMap] at hshadow
        obtain ⟨host, hhost, hescope⟩ := hshadow
        unfold scopeEls at hescope
        cases hsh : host.shadow with
        | none => rw [hsh] at hescope; simp at hescope
        | some sd =>
          rw [hsh] at hescope
          have hrec := querySelectorShadow_complete sel (.sh sd.1 sd.2) e
            (by simpa [childReachEls, QNode.kidsOf] using hescope) hm
          obtain ⟨m, hms, hmm⟩ := hrec
          have hne : (nativeQSA starSel root).findSome? (shadowStep sel) ≠ none := by
            intro h0
            have hall := List.findSome?_eq_none_iff.1 h0 host
              (by rw [nativeQSA_star]; exact hhost)
            unfold shadowStep at hall
            rw [hsh] at hall
            simp [hms] at hall
          cases hfs : (nativeQSA starSel root).findSome? (shadowStep sel) with
          | none => exact absurd hfs hne
          | some r =>
            refine ⟨r, rfl, ?_⟩
            obtain ⟨y, hy, hgy⟩ := List.exists_of_findSome?_eq_some hfs
            unfold shadowStep at hgy
            cases hysh : y.shadow with
            | none => rw [hysh] at hgy; simp at hgy
            | some sd2 =>
              rw [hysh] at hgy
              exact querySelectorShadow_sound sel (.sh sd2.1 sd2.2) r hgy
termination_by root _ => qsize root
decreasing_by
  exact qsize_shadow_lt_of_mem root host sd hhost hsh

theorem map_filterMap_sublist {α β γ : Type} (f : α → Option β) (g : β → γ)
    (h : α → γ) (H : ∀ a b, f a = some b → g b = h a) :
    ∀ l : List α, ((l.filterMap f).map g).Sublist (l.map h)
  | [] => by simp
  | a :: l => by
    rw [List.filterMap_cons]
    cases hfa : f a with
    | none =>
      rw [List.map_cons]
      exact (map_filterMap_sublist f g h H l).cons _
    | some b =>
      rw [List.map_cons, List.map_cons, H a b hfa]
      exact (map_filterMap_sublist f g h H l).cons₂ _

theorem elemsOf_map_eid_sublist (l : List QNode) :
    ((elemsOf l).map Elem.eid).Sublist (l.map QNode.qid) := by
  unfold elemsOf
  refine map_filterMap_sublist _ _ _ ?_ l
  intro a b hab
  cases a with
  | el x => simp at hab; subst hab; rfl
  | sh i ks => simp at hab
  | doc i ks => simp at hab

theorem wf_split (root : QNode) (h : Wf root) :
    root.qid ∉ (properNodes root).map QNode.qid ∧
      ((properNodes root).map QNode.qid).Nodup := by
  unfold Wf allIds at h
  have hq : qSub root = root :: properNodes root := rfl
  rw [hq, List.map_cons, List.nodup_cons] at h
  exact h

/-- Under well-formedness, the identities of the proper composed-tree
elements are distinct. -/
theorem wf_properEls_nodup (root : QNode) (h : Wf root) :
    ((properEls root).map Elem.eid).Nodup :=
  ((elemsOf_map_eid_sublist (properNodes root)).nodup (wf_split root h).2 : _)

/-- Under well-formedness, no proper composed-tree element carries the
root's identity. -/
theorem wf_proper_ne_root (root : QNode) (h : Wf root) (e : Elem)
    (he : e ∈ properEls root) : e.eid ≠ root.qid := by
  intro heq
  have h1 : e.eid ∈ (properEls root).map Elem.eid := List.mem_map_of_mem _ he
  have h2 : e.eid ∈ (properNodes root).map QNode.qid :=
    (elemsOf_map_eid_sublist (properNodes root)).subset h1
  rw [heq] at h2
  exact (wf_split root h).1 h2

theorem listSubN_kids_sublist (root : QNode) :
    (listSubN root.kidsOf).Sublist (properNodes root) := by
  cases root with
  | el e =>
    cases e with
    | mk i m sh ks =>
      have : properNodes (QNode.el (.mk i m sh ks)) = shSubN sh ++ listSubN ks := rfl
      rw [this]
      exact List.sublist_append_right _ _
  | sh i ks => exact List.Sublist.refl _
  | doc i ks => exact List.Sublist.refl _

/-- Elements reachable below the children are among the proper
composed-tree elements. -/
theorem childReachEls_sublist (root : QNode) :
    (childReachEls root).Sublist (properEls root) := by
  unfold childReachEls properEls
  unfold elemsOf
  exact (listSubN_kids_sublist root).filterMap _

/-! Concrete composed trees and selectors used as test inputs. -/

/-- The selector `.x`. -/
def selX : Sel := ['.', 'x']

/-- The selector `.y`. -/
def selY : Sel := ['.', 'y']

/-- A leaf element matching `.x`. -/
def mId : Elem := .mk 3 [selX] none []

/-- A host element with an open shadow root containing `mId` and no
light children. -/
def hostH : Elem := .mk 1 [] (some (2, [mId])) []

/-- A document whose only element child is `hostH`. -/
def docT : QNode := .doc 0 [hostH]

/-- A leaf matching `.y`, nested one level down. -/
def elemC : Elem := .mk 13 [selY] none []

/-- A childless `.y`-matching sibling. -/
def elemB : Elem := .mk 12 [selY] none []

/-- A non-matching element whose only child is `elemC`. -/
def elemA : Elem := .mk 11 [] none [elemC]

/-- A document with children `elemA`, `elemB`: `elemC` precedes `elemB`
in document order but follows it in level order. -/
def docT8 : QNode := .doc 10 [elemA, elemB]

/-- An element matching `.x`, at the top of the document tree. -/
def upAncestor : Up := .mk 23 [selX] .docTop

/-- A non-matching shadow host whose parent is `upAncestor`. -/
def upHost : Up := .mk 22 [] (.parent upAncestor)

/-- A non-matching element sitting directly under the shadow root hosted
by `upHost`. -/
def upInner : Up := .mk 21 [] (.shadowTop upHost)

/-- A non-matching element at the top of a plain document tree. -/
def upLone : Up := .mk 31 [] .docTop

theorem esize_le_of_mem_elems_listSubN :
    ∀ (l : List Elem) (e : Elem), e ∈ elemsOf (listSubN l) → esize e ≤ lsize l
  | [], e, h => by simp [listSubN, elemsOf] at h
  | .mk i m sh ks :: es, e, h => by
    have hL : listSubN (Elem.mk i m sh ks :: es) =
        QNode.el (.mk i m sh ks) :: ((shSubN sh ++ listSubN ks) ++ listSubN es) := by
      simp [listSubN, elSubN]
    rw [hL, elemsOf_cons_el, elemsOf_append, elemsOf_append] at h
    rcases List.mem_cons.1 h with rfl | h2
    · simp only [lsize]
      omega
    · rcases List.mem_append.1 h2 with h3 | h4
      · rcases List.mem_append.1 h3 with h5 | h6
        · cases hsh : sh with
          | none => rw [hsh] at h5; simp [shSubN, elemsOf] at h5
          | some sd =>
            rw [hsh] at h5
            rw [show shSubN (some sd) = QNode.sh sd.1 sd.2 :: listSubN sd.2 from rfl,
              elemsOf_cons_sh] at h5
            have hk := esize_le_of_mem_elems_listSubN sd.2 e h5
            simp only [lsize, esize, hsh, shsize]
            omega
        · have hk := esize_le_of_mem_elems_listSubN ks e h6
          simp only [lsize, esize]
          omega
      · have hk := esize_le_of_mem_elems_listSubN es e h4
        simp only [lsize]
        omega

/-- Claim C2 (code_bug evidence): once the unnamed script has replaced
`Document.prototype.querySelector` and `Element.prototype.querySelector`
without saving the originals, the overridden `querySelector` never
returns on any document or element receiver, for any selector and any
amount of fuel: `querySelectorShadow`'s first step
`root.querySelector(selector)` re-enters the override itself. -/
theorem c2_implicit_querySelector_diverges :
    ∀ (f : Nat) (sel : Sel) (i : Nat) (ks : List Elem) (e : Elem),
      p0QuerySelector f sel (QNode.doc i ks) = none ∧
      p0QuerySelector f sel (QNode.el e) = none := by
  have key : ∀ (f : Nat) (sel : Sel) (r : QNode), r.isPatched = true →
      p0QuerySelector f sel r = none ∧ p0QuerySelectorShadow f sel r = none := by
    intro f
    induction f with
    | zero => exact fun sel r h => ⟨rfl, rfl⟩
    | succ f ih =>
      intro sel r h
      constructor
      · rw [p0QuerySelector]
        exact (ih sel r h).2
      · cases r with
        | el e =>
          have h1 := (ih sel (QNode.el e) rfl).1
          simp [p0QuerySelectorShadow, h1]
        | doc i ks =>
          have h1 := (ih sel (QNode.doc i ks) rfl).1
          simp [p0QuerySelectorShadow, h1]
        | sh i ks => simp [QNode.isPatched] at h
  intro f sel i ks e
  exact ⟨(key f sel (QNode.doc i ks) rfl).1, (key f sel (QNode.el e) rfl).1⟩

/-- Claim C3 (code_bug evidence): for an element inside a shadow root
whose host's parent matches the selector, `closestShadow` raises a
`TypeError` (the source dereferences the null `element` after the
parent chain is exhausted) instead of continuing from the shadow host
and returning the matching ancestor. -/
theorem c3_closest_throws_at_shadow_top :
    closestShadow upInner selX = .error () ∧ upMatches upAncestor selX = true :=
  ⟨rfl, rfl⟩

/-- Claim C4 (code_bug evidence): on the not-found path — no element of
the upward walk matches — `closestShadow` raises a `TypeError` instead
of returning null: the starting element does not match and has no
parent, and the source then evaluates `null.getRootNode()`. -/
theorem c4_not_found_throws :
    closestShadow upLone selX = .error () ∧ upMatches upLone selX = false :=
  ⟨rfl, rfl⟩

/-- Claim C5: neither all-matches variant ever reports the initial root
itself, whatever the selector and whether or not the root matches it.
The queue variant excludes it by the `current !== root` comparison; the
recursive variant only ever collects proper descendants. -/
theorem c5_self_exclusion (sel : Sel) (r : Elem) :
    r ∉ querySelectorAllShadowOptimized sel (QNode.el r) ∧
      r ∉ querySelectorAllShadow sel (QNode.el r) := by
  constructor
  · intro hmem
    rw [(optimized_perm sel (QNode.el r)).mem_iff, List.mem_filter] at hmem
    have h2 := hmem.2
    simp [QNode.qid] at h2
  · intro hmem
    rw [(querySelectorAllShadow_perm sel (QNode.el r)).mem_iff, List.mem_filter] at hmem
    have h1 := hmem.1
    unfold childReachEls at h1
    have hsize := esize_le_of_mem_elems_listSubN _ r h1
    have hlt : lsize (QNode.el r).kidsOf < qsize (QNode.el r) := lsize_kidsOf_lt_qsize _
    have hq : qsize (QNode.el r) = esize r := rfl
    omega

/-- Claim C5 witness: the matching element `mId` is not reported when
the traversals are rooted at `mId` itself. -/
theorem c5_self_exclusion_witness :
    mId ∉ querySelectorAllShadowOptimized selX (QNode.el mId) ∧
      mId ∉ querySelectorAllShadow selX (QNode.el mId) :=
  c5_self_exclusion selX mId

/-- Claim C9: the queue traversal invokes the native match predicate
exactly on the visited nodes that pass the short-circuit guard
`current !== root && current.matches`, and every such node carries the
`matches` capability — shadow roots and documents are visited (their
children are still enqueued) but never tested, and no error arises. -/
theorem c9_skip_without_matches (rid : Nat) (q : List QNode) :
    bfsAttempts rid q =
        (visit q).filter (fun n => n.qid != rid && n.hasMatches) ∧
      (bfsAttempts rid q).all QNode.hasMatches = true := by
  refine ⟨bfsAttempts_eq_visit rid q, ?_⟩
  rw [bfsAttempts_eq_visit rid q, List.all_eq_true]
  intro n hn
  rw [List.mem_filter, Bool.and_eq_true] at hn
  exact hn.2.2

/-- Claim C10: `closestShadow` is inclusive of its starting element:
when the element itself matches, it is returned at once, whatever lies
above it (parent, document top, or shadow top). -/
theorem c10_closest_inclusive (i : Nat) (ms : List Sel) (nx : UpNext) (sel : Sel)
    (h : upMatches (.mk i ms nx) sel = true) :
    closestShadow (.mk i ms nx) sel = .ok (some (.mk i ms nx)) := by
  cases nx <;> simp [closestShadow, h]

/-- Claim C10 witness: a `.x`-matching element with a parent is returned
directly. -/
theorem c10_closest_inclusive_witness :
    closestShadow (.mk 41 [selX] (.parent upLone)) selX =
      .ok (some (.mk 41 [selX] (.parent upLone))) :=
  c10_closest_inclusive 41 [selX] (.parent upLone) selX (by decide)

/-- Claim C1 counterexample: `hostH` hosts a shadow root containing the
`.x`-matching element `mId`, and has no light children.  `mId` is
reachable from the root `hostH` through one shadow boundary, yet
`querySelectorShadow` returns null and `querySelectorAllShadow` returns
the empty list: both only recurse into shadow roots of proper light
descendants and never consult the root's own `shadowRoot`. -/
theorem c1_counterexample :
    elemMatches mId selX = true ∧
      mId ∈ properEls (QNode.el hostH) ∧
      querySelectorShadow selX (QNode.el hostH) = none ∧
      querySelectorAllShadow selX (QNode.el hostH) = [] := by
  refine ⟨by decide, ?_, ?_, ?_⟩
  · simp [properEls, properNodes, hostH, mId, listSubN, elSubN, shSubN,
      elemsOf_cons_el, elemsOf_cons_sh, elemsOf_append, elemsOf_nil]
  · rw [querySelectorShadow_eq]
    simp [nativeQS, nativeQSA, hostH, QNode.kidsOf, Elem.kids, lightList]
  · rw [querySelectorAllShadow_eq]
    simp [nativeQS, nativeQSA, hostH, QNode.kidsOf, Elem.kids, lightList]

/-- Claim C1 (amended): completeness holds for every match reachable
below the root's children — the composed tree minus the root's own
shadow tree — for `querySelectorShadow` (which then returns a matching
element) and `querySelectorAllShadow` (which then contains the match);
the queue variant `querySelectorAllShadowOptimized` additionally finds
matches inside the root's own shadow tree, i.e. every proper
composed-tree match. -/
theorem c1_amended (sel : Sel) (root : QNode) (e : Elem)
    (hwf : Wf root) (hm : elemMatches e sel = true) :
    (e ∈ childReachEls root →
      (∃ m, querySelectorShadow sel root = some m ∧ elemMatches m sel = true) ∧
        e ∈ querySelectorAllShadow sel root) ∧
    (e ∈ properEls root → e ∈ querySelectorAllShadowOptimized sel root) := by
  constructor
  · intro hr
    refine ⟨querySelectorShadow_complete sel root e hr hm, ?_⟩
    rw [(querySelectorAllShadow_perm sel root).mem_iff, List.mem_filter]
    exact ⟨hr, hm⟩
  · intro hr
    rw [(optimized_perm sel root).mem_iff, List.mem_filter]
    refine ⟨hr, ?_⟩
    have hne := wf_proper_ne_root root hwf e hr
    simp [hne, hm]

/-- Claim C1 witness: in the document `docT` the `.x`-element inside
`hostH`'s shadow root is found by all three traversals. -/
theorem c1_amended_witness :
    (∃ m, querySelectorShadow selX docT = some m ∧ elemMatches m selX = true) ∧
      mId ∈ querySelectorAllShadow selX docT ∧
      mId ∈ querySelectorAllShadowOptimized selX docT := by
  have h := c1_amended selX docT mId (by decide) (by decide)
  have hcr : mId ∈ childReachEls docT := by
    simp [childReachEls, docT, QNode.kidsOf, hostH, mId, listSubN, elSubN, shSubN,
      elemsOf_cons_el, elemsOf_cons_sh, elemsOf_append, elemsOf_nil]
  have hpe : mId ∈ properEls docT := by
    simp [properEls, properNodes, docT, hostH, mId, listSubN, elSubN, shSubN,
      elemsOf_cons_el, elemsOf_cons_sh, elemsOf_append, elemsOf_nil]
  exact ⟨(h.1 hcr).1, (h.1 hcr).2, h.2 hpe⟩

/-- Claim C6 counterexample: with the unnamed script's overrides in
place, `document.querySelectorAllShadow('.x')` on `docT` reports the
single matching element twice: its initial
`root.querySelectorAll(selector)` is now the shadow-piercing optimized
traversal (already finding `mId` inside `hostH`'s shadow root), and the
explicit recursion into `hostH`'s shadow root then collects `mId`
again. -/
theorem c6_counterexample :
    p0QuerySelectorAllShadow 10 selX docT = some [mId, mId] ∧
      (([mId, mId]).map Elem.eid).count mId.eid = 2 := by
  constructor
  · simp [p0QuerySelectorAllShadow, p0AllLoop, p0qsaDispatch, docT, hostH, mId,
      querySelectorAllShadowOptimized, bfs, qChildren, QNode.shadowOf, QNode.kidsOf,
      Elem.kids, Elem.shadow, shadowNodes, elemMatches, Elem.ms, Elem.eid, QNode.qid,
      starSel, selX, nativeQSA, nativeQS, lightList]
  · decide

/-- Claim C6 (amended): before the overrides are installed, neither
variant ever duplicates: under well-formedness (distinct node
identities), every matching element below the root's children appears
exactly once in `querySelectorAllShadow`'s result, and every matching
proper composed-tree element appears exactly once in
`querySelectorAllShadowOptimized`'s result.  After the unnamed script's
overrides, the recursive variant can report a node twice (see the
counterexample). -/
theorem c6_amended (sel : Sel) (root : QNode) (e : Elem) (hwf : Wf root)
    (hm : elemMatches e sel = true) :
    (e ∈ properEls root →
      ((querySelectorAllShadowOptimized sel root).map Elem.eid).count e.eid = 1) ∧
    (e ∈ childReachEls root →
      ((querySelectorAllShadow sel root).map Elem.eid).count e.eid = 1) := by
  constructor
  · intro hr
    have hperm := (optimized_perm sel root).map Elem.eid
    rw [hperm.count_eq]
    have hne := wf_proper_ne_root root hwf e hr
    have hnodup : (((properEls root).filter
        (fun x => x.eid != root.qid && elemMatches x sel)).map Elem.eid).Nodup :=
      ((List.filter_sublist _).map Elem.eid).nodup (wf_properEls_nodup root hwf)
    have hmem : e.eid ∈ ((properEls root).filter
        (fun x => x.eid != root.qid && elemMatches x sel)).map Elem.eid := by
      refine List.mem_map_of_mem _ ?_
      rw [List.mem_filter]
      refine ⟨hr, ?_⟩
      simp [hne, hm]
    exact List.count_eq_one_of_mem hnodup hmem
  · intro hr
    have hperm := (querySelectorAllShadow_perm sel root).map Elem.eid
    rw [hperm.count_eq]
    have hnodup2 : ((childReachEls root).map Elem.eid).Nodup :=
      ((childReachEls_sublist root).map Elem.eid).nodup (wf_properEls_nodup root hwf)
    have hnodup : (((childReachEls root).filter
        (fun x => elemMatches x sel)).map Elem.eid).Nodup :=
      ((List.filter_sublist _).map Elem.eid).nodup hnodup2
    have hmem : e.eid ∈ ((childReachEls root).filter
        (fun x => elemMatches x sel)).map Elem.eid := by
      refine List.mem_map_of_mem _ ?_
      rw [List.mem_filter]
      exact ⟨hr, hm⟩
    exact List.count_eq_one_of_mem hnodup hmem

/-- Claim C6 witness: in `docT` the single `.x`-match is reported
exactly once by both pre-override variants. -/
theorem c6_amended_witness :
    ((querySelectorAllShadowOptimized selX docT).map Elem.eid).count mId.eid = 1 ∧
      ((querySelectorAllShadow selX docT).map Elem.eid).count mId.eid = 1 := by
  have h := c6_amended selX docT mId (by decide) (by decide)
  have hpe : mId ∈ properEls docT := by
    simp [properEls, properNodes, docT, hostH, mId, listSubN, elSubN, shSubN,
      elemsOf_cons_el, elemsOf_cons_sh, elemsOf_append, elemsOf_nil]
  have hcr : mId ∈ childReachEls docT := by
    simp [childReachEls, docT, QNode.kidsOf, hostH, mId, listSubN, elSubN, shSubN,
      elemsOf_cons_el, elemsOf_cons_sh, elemsOf_append, elemsOf_nil]
  exact ⟨h.1 hpe, h.2 hcr⟩

theorem containsSeq_of_isPrefixOf (pat : List Char) :
    ∀ l : List Char, pat.isPrefixOf l = true → containsSeq pat l = true
  | [], h => by rw [containsSeq]; exact h
  | c :: cs, h => by rw [containsSeq]; simp [h]

theorem needsShadowSearch_marker (s : Sel) :
    needsShadowSearch (shadowTok ++ ' ' :: s) = true := by
  unfold needsShadowSearch
  have hpre : shadowTok.isPrefixOf (shadowTok ++ ' ' :: s) = true := by
    rw [List.isPrefixOf_iff_prefix]
    exact List.prefix_append _ _
  rw [containsSeq_of_isPrefixOf shadowTok _ hpre]
  rfl

theorem needsShadowSearch_false_split (s : Sel) (h : needsShadowSearch s = false) :
    containsSeq shadowTok s = false ∧ containsSeq arrowTok s = false := by
  unfold needsShadowSearch at h
  rcases Bool.or_eq_false_iff.1 h with ⟨h1, h2⟩
  exact ⟨h1, h2⟩

theorem stripShadowTok_no_marker :
    ∀ s : List Char, containsSeq shadowTok s = false → stripShadowTok s = s
  | [], _ => by rw [stripShadowTok]
  | c :: cs, h => by
    rw [containsSeq] at h
    rcases Bool.or_eq_false_iff.1 h with ⟨h1, h2⟩
    rw [stripShadowTok, if_neg (by simp [h1])]
    rw [stripShadowTok_no_marker cs h2]

theorem stripArrowTok_no_marker :
    ∀ s : List Char, containsSeq arrowTok s = false → stripArrowTok s = s
  | [], _ => by rw [stripArrowTok]
  | c :: cs, h => by
    rw [containsSeq] at h
    rcases Bool.or_eq_false_iff.1 h with ⟨h1, h2⟩
    rw [stripArrowTok, if_neg (by simp [h1])]
    rw [stripArrowTok_no_marker cs h2]

theorem stripShadowTok_marker (s : List Char) (hws : s.dropWhile jsWS = s) :
    stripShadowTok (shadowTok ++ ' ' :: s) = stripShadowTok s := by
  have hpre : shadowTok.isPrefixOf (shadowTok ++ ' ' :: s) = true := by
    rw [List.isPrefixOf_iff_prefix]
    exact List.prefix_append _ _
  have hsplit : shadowTok ++ ' ' :: s =
      ':' :: (['s', 'h', 'a', 'd', 'o', 'w'] ++ ' ' :: s) := rfl
  rw [hsplit, stripShadowTok]
  rw [if_pos (by rw [← hsplit]; exact hpre)]
  have hdrop : (['s', 'h', 'a', 'd', 'o', 'w'] ++ ' ' :: s).drop 6 = ' ' :: s := by
    rw [show (6 : Nat) = (['s', 'h', 'a', 'd', 'o', 'w'] : List Char).length from rfl]
    exact List.drop_left _ _
  rw [hdrop]
  rw [List.dropWhile_cons]
  rw [if_pos (by decide)]
  rw [hws]

theorem jsTrim_stable (s : List Char) (hws : s.dropWhile jsWS = s)
    (hwe : s.reverse.dropWhile jsWS = s.reverse) : jsTrim s = s := by
  unfold jsTrim
  rw [hws, hwe, List.reverse_reverse]

/-- `cleanSelector` is the identity on marker-free, trimmed
selectors. -/
theorem cleanSelector_no_marker (s : Sel) (hns : needsShadowSearch s = false)
    (hws : s.dropWhile jsWS = s) (hwe : s.reverse.dropWhile jsWS = s.reverse) :
    cleanSelector s = s := by
  unfold cleanSelector
  rw [stripShadowTok_no_marker s (needsShadowSearch_false_split s hns).1]
  rw [stripArrowTok_no_marker s (needsShadowSearch_false_split s hns).2]
  exact jsTrim_stable s hws hwe

/-- `cleanSelector` strips a leading `:shadow ` marker and returns the
marker-free remainder unchanged. -/
theorem cleanSelector_marker (s : Sel) (hns : needsShadowSearch s = false)
    (hws : s.dropWhile jsWS = s) (hwe : s.reverse.dropWhile jsWS = s.reverse) :
    cleanSelector (shadowTok ++ ' ' :: s) = s := by
  unfold cleanSelector
  rw [stripShadowTok_marker s hws]
  rw [stripShadowTok_no_marker s (needsShadowSearch_false_split s hns).1]
  rw [stripArrowTok_no_marker s (needsShadowSearch_false_split s hns).2]
  exact jsTrim_stable s hws hwe

/-- Claim C7: with the marker-gated overrides installed, (a) a selector
containing a marker is answered by the shadow-aware traversals on the
stripped selector (`querySelectorShadow` for `querySelector`,
`querySelectorAllShadowOptimized` for `querySelectorAll`) rooted at the
receiver; (b) a marker-free selector is answered exactly by the saved
native methods; and concretely, for a marker-free trimmed selector `s`,
querying `':shadow ' + s` equals the shadow-aware traversals on `s`
itself. -/
theorem c7_marker_gated (sel s : Sel) (r : QNode)
    (hns : needsShadowSearch s = false)
    (hws : s.dropWhile jsWS = s) (hwe : s.reverse.dropWhile jsWS = s.reverse) :
    (needsShadowSearch sel = true →
      mgQuerySelector sel r = querySelectorShadow (cleanSelector sel) r ∧
        mgQuerySelectorAll sel r = querySelectorAllShadowOptimized (cleanSelector sel) r) ∧
      (mgQuerySelector s r = nativeQS s r ∧ mgQuerySelectorAll s r = nativeQSA s r) ∧
      (mgQuerySelector (shadowTok ++ ' ' :: s) r = querySelectorShadow s r ∧
        mgQuerySelectorAll (shadowTok ++ ' ' :: s) r =
          querySelectorAllShadowOptimized s r) := by
  refine ⟨fun hm => ⟨?_, ?_⟩, ⟨?_, ?_⟩, ?_, ?_⟩
  · simp [mgQuerySelector, hm]
  · simp [mgQuerySelectorAll, hm]
  · simp [mgQuerySelector, hns]
  · simp [mgQuerySelectorAll, hns]
  · simp [mgQuerySelector, needsShadowSearch_marker s,
      cleanSelector_marker s hns hws hwe]
  · simp [mgQuerySelectorAll, needsShadowSearch_marker s,
      cleanSelector_marker s hns hws hwe]

/-- Claim C7 witness: on `docT`, the marked query `':shadow .x'` equals
the optimized shadow traversal for `.x`, and the unmarked query `.x`
equals the native query. -/
theorem c7_marker_gated_witness :
    mgQuerySelectorAll (shadowTok ++ ' ' :: selX) docT =
      querySelectorAllShadowOptimized selX docT ∧
      mgQuerySelector selX docT = nativeQS selX docT := by
  have h := c7_marker_gated shadowTok selX docT (by decide) (by decide) (by decide)
  exact ⟨h.2.2.2, h.2.1.1⟩

/-- Claim C8: the queue variant's result is exactly the level order of
the composed tree (computed round by round from the frontier
discipline: a node's shadow root first, then its children) filtered by
the source's test, which skips the initial root and non-element nodes;
concretely, on `docT8` it yields the level-order `[elemB, elemC]` while
the composed-tree document (preorder) order of the matches is
`[elemC, elemB]`. -/
theorem c8_level_order (sel : Sel) (root : QNode) :
    querySelectorAllShadowOptimized sel root =
      (levelOrder [root]).filterMap (bfsTest sel root.qid) ∧
      querySelectorAllShadowOptimized selY docT8 = [elemB, elemC] ∧
      (properEls docT8).filter (fun e => elemMatches e selY) = [elemC, elemB] := by
  refine ⟨?_, ?_, ?_⟩
  · unfold querySelectorAllShadowOptimized
    rw [bfs_eq_visit, visit_eq_levelOrder]
  · simp [querySelectorAllShadowOptimized, bfs, docT8, elemA, elemB, elemC, qChildren,
      QNode.shadowOf, QNode.kidsOf, Elem.kids, Elem.shadow, shadowNodes, elemMatches,
      Elem.ms, Elem.eid, QNode.qid, starSel, selY]
  · simp [properEls, properNodes, docT8, elemA, elemB, elemC, listSubN, elSubN, shSubN,
      elemsOf_cons_el, elemsOf_cons_sh, elemsOf_append, elemsOf_nil, elemMatches,
      Elem.ms, selY, List.filter_cons, starSel]

end SQS
